import Mathlib

/-!
Verification of the QEMU Virtual Open Firmware (VOF) client interface.

This file is a shallow embedding of the allocator, device-tree and instance
services of `hw/ppc/vof.c`, `hw/ppc/spapr_vof.c` and `include/hw/ppc/vof.h`,
together with proofs about them.  Machine integers are modelled as `Nat`,
reduced modulo `2 ^ 64` (resp. `2 ^ 32`) exactly where the C code can wrap.
C functions keep their names.  External QEMU / libfdt helpers that the
embedded code calls (and that are not part of the embedded sources) are
modelled from the specification and marked as such in their doc comments.
-/

namespace VofModel

/-- Width bound of `uint64_t` values. -/
def U64 : Nat := 2 ^ 64

/-- Width bound of `uint32_t` values. -/
def U32 : Nat := 2 ^ 32

/-- Record `OfClaimed` from `hw/ppc/vof.c`: one claimed memory range. -/
structure OfClaimed where
  start : Nat
  size : Nat
deriving DecidableEq

/-- Record `OfInstance` from `hw/ppc/vof.c`, keeping the fields the embedded
services use.  The QOM device, chardev and block-backend pointers are
modelled as presence flags plus the block cursor. -/
structure OfInstance where
  path : String
  phandle : Nat
  dev : Bool
  cbe : Bool
  blk : Bool
  blk_pos : Nat
deriving DecidableEq

/-- Record `Vof` from `include/hw/ppc/vof.h` (the fields used by the embedded
code).  The GArray `claimed` of `OfClaimed` is a list; the ihandle hash table
`of_instances` is an association list; `bootargs` is a byte string. -/
structure Vof where
  top_addr : Nat
  claimed : List OfClaimed
  claimed_base : Nat
  of_instances : List (Nat × OfInstance)
  of_instance_last : Nat
  bootargs : List Nat
  fw_size : Nat
  quiesced : Bool
deriving DecidableEq

/-- Modelled from the spec: QEMU helper `range_get_last(offset, len)` from
`include/qemu/range.h` (not under the embedded sources): the last byte
address of a range, `offset + len - 1` in wrapping `uint64_t` arithmetic. -/
def range_get_last (offset len : Nat) : Nat :=
  (offset + len + (U64 - 1)) % U64

/-- Modelled from the spec: QEMU helper `ranges_overlap(first1, len1, first2,
len2)` from `include/qemu/range.h` (not under the embedded sources): true
unless one range ends strictly before the other starts, comparing the
wrapped last-byte addresses. -/
def ranges_overlap (first1 len1 first2 len2 : Nat) : Bool :=
  !(range_get_last first2 len2 < first1 || range_get_last first1 len1 < first2)

/-- Function `vof_claim_avail` from `hw/ppc/vof.c`: true iff the range
`[virt, virt + size)` overlaps none of the already claimed ranges. -/
def vof_claim_avail (claimed : List OfClaimed) (virt size : Nat) : Bool :=
  claimed.all fun c => !ranges_overlap c.start c.size virt size

/-- Function `vof_claim_add` from `hw/ppc/vof.c`: append the new range to the
claim array (`g_array_append_val`). -/
def vof_claim_add (claimed : List OfClaimed) (virt size : Nat) : List OfClaimed :=
  claimed ++ [⟨virt, size⟩]

/-- Modelled from the spec: QEMU macro `QEMU_ALIGN_UP(n, m)` from
`include/qemu/osdep.h` (not under the embedded sources): round `n` up to a
multiple of `m`, i.e. `((n + m - 1) / m) * m` with a wrapping 64-bit sum. -/
def alignUp (n m : Nat) : Nat :=
  (n + m + (U64 - 1)) % U64 / m * m

/-- Probe loop of `vof_claim` (`hw/ppc/vof.c`, auto-placement branch), with
explicit fuel.  Returns the final value of the rolling cursor together with
the found address, if any; the C loop runs until the cursor is at or above
`top_addr` (returning `-1`) or an available slot is found. -/
def vof_claim_loop (claimed : List OfClaimed) (top_addr size : Nat) :
    Nat → Nat → Nat × Option Nat
  | 0, base => (base, none)
  | fuel + 1, base =>
    if top_addr ≤ base then (base, none)
    else if vof_claim_avail claimed base size then (base, some base)
    else vof_claim_loop claimed top_addr size fuel ((base + size) % U64)

/-- Success tail of `vof_claim` (`hw/ppc/vof.c`): the `if (ret != -1)` block
that advances the rolling cursor and records the new range. -/
def vof_claim_finish (vof : Vof) (ret size : Nat) : Vof × Nat :=
  if ret = U64 - 1 then (vof, ret)
  else
    ({ vof with
        claimed_base := max vof.claimed_base ((ret + size) % U64),
        claimed := vof_claim_add vof.claimed ret size }, ret)

/-- Function `vof_claim` from `hw/ppc/vof.c`.  Returns the new state and the
returned address; `2 ^ 64 - 1` encodes the C `-1` failure value.  The
auto-placement loop runs with fuel `top_addr + 2`, which covers every
terminating run that does not wrap the 64-bit cursor. -/
def vof_claim (vof : Vof) (virt size align : Nat) : Vof × Nat :=
  if size = 0 then (vof, U64 - 1)
  else if align = 0 then
    if vof_claim_avail vof.claimed virt size then vof_claim_finish vof virt size
    else (vof, U64 - 1)
  else
    match vof_claim_loop vof.claimed vof.top_addr size (vof.top_addr + 2)
        (alignUp vof.claimed_base align) with
    | (base1, none) => ({ vof with claimed_base := base1 }, U64 - 1)
    | (base1, some a) => vof_claim_finish { vof with claimed_base := base1 } a size

/-- Removal scan of `vof_release` (`hw/ppc/vof.c`): drop the first range with
exactly matching start and size, or report failure. -/
def vof_release_scan : List OfClaimed → Nat → Nat → Option (List OfClaimed)
  | [], _, _ => none
  | c :: rest, virt, size =>
    if c.start = virt ∧ c.size = size then some rest
    else match vof_release_scan rest virt size with
      | some l => some (c :: l)
      | none => none

/-- Function `vof_release` from `hw/ppc/vof.c`: remove the range with exactly
matching start and size; the `uint32_t` result is `0` on success and
`2 ^ 32 - 1` (C `-1`) on failure. -/
def vof_release (vof : Vof) (virt size : Nat) : Vof × Nat :=
  match vof_release_scan vof.claimed virt size with
  | some l => ({ vof with claimed := l }, 0)
  | none => (vof, U32 - 1)

/-- One gibibyte, as in QEMU's `units.h`. -/
def GiB : Nat := 2 ^ 30

/-- State reset performed at the top of `vof_init` (`hw/ppc/vof.c`): fresh
claim and instance tables and the upper allocation bound clamped to 4 GiB. -/
def vof_init_base (vof : Vof) (top_addr : Nat) : Vof :=
  { vof with claimed := [], of_instances := [],
             top_addr := min top_addr (4 * GiB) }

/-- Function `vof_init` from `hw/ppc/vof.c`: after resetting the tables, the
upper bound is clamped and `[0, fw_size)` is self-claimed.  The boolean is
true when the self-claim failed (the C code then reports an error). -/
def vof_init (vof : Vof) (top_addr : Nat) : Vof × Bool :=
  let r := vof_claim (vof_init_base vof top_addr) 0 vof.fw_size 0
  (r.1, r.2 = U64 - 1)

/-- A zero-initialized `Vof` as the machine allocates it before the first
`vof_init` (QOM instance structs are zero-initialized). -/
def Vof.initial (fw_size : Nat) : Vof :=
  { top_addr := 0, claimed := [], claimed_base := 0, of_instances := [],
    of_instance_last := 0, bootargs := [], fw_size := fw_size, quiesced := false }

/-- A fresh claim table with a given upper bound: no claims, cursor at 0. -/
def freshTable (top : Nat) : Vof :=
  { Vof.initial 0 with top_addr := top }

/-! ### Mathematical reading of the allocator -/

/-- Interval disjointness, without wraparound: `[virt, virt + size)` meets no
claimed range. -/
def disjointFromAll (claimed : List OfClaimed) (virt size : Nat) : Prop :=
  ∀ c ∈ claimed, c.start + c.size ≤ virt ∨ virt + size ≤ c.start

/-- Well-formedness of a claim table: every range has positive size and does
not wrap the 64-bit address space. -/
def WFclaims (claimed : List OfClaimed) : Prop :=
  ∀ c ∈ claimed, 0 < c.size ∧ c.start + c.size ≤ U64

/-- No two held ranges overlap (as unwrapped address intervals). -/
def NoOverlap (claimed : List OfClaimed) : Prop :=
  claimed.Pairwise fun c d => c.start + c.size ≤ d.start ∨ d.start + d.size ≤ c.start

instance (claimed : List OfClaimed) (virt size : Nat) :
    Decidable (disjointFromAll claimed virt size) := by
  unfold disjointFromAll; infer_instance

instance (claimed : List OfClaimed) : Decidable (WFclaims claimed) := by
  unfold WFclaims; infer_instance

instance (claimed : List OfClaimed) : Decidable (NoOverlap claimed) := by
  unfold NoOverlap; infer_instance

theorem range_get_last_eq (a s : Nat) (hs : 0 < s) (h : a + s ≤ U64) :
    range_get_last a s = a + s - 1 := by
  unfold range_get_last
  have hU : 0 < U64 := by unfold U64; positivity
  have h1 : a + s + (U64 - 1) = (a + s - 1) + U64 := by omega
  rw [h1, Nat.add_mod_right, Nat.mod_eq_of_lt (by omega)]

theorem ranges_overlap_eq_false_iff (a s b t : Nat)
    (hs : 0 < s) (ht : 0 < t) (ha : a + s ≤ U64) (hb : b + t ≤ U64) :
    ranges_overlap a s b t = false ↔ (a + s ≤ b ∨ b + t ≤ a) := by
  unfold ranges_overlap
  rw [range_get_last_eq a s hs ha, range_get_last_eq b t ht hb]
  simp only [Bool.not_eq_false', Bool.or_eq_true, decide_eq_true_eq]
  omega

theorem vof_claim_avail_iff (claimed : List OfClaimed) (virt size : Nat)
    (hwf : WFclaims claimed) (hs : 0 < size) (hv : virt + size ≤ U64) :
    vof_claim_avail claimed virt size = true ↔ disjointFromAll claimed virt size := by
  unfold vof_claim_avail disjointFromAll
  rw [List.all_eq_true]
  refine forall_congr' fun c => ?_
  constructor
  · intro h hc
    have hwc := hwf c hc
    have := h hc
    rw [Bool.not_eq_true'] at this
    have := (ranges_overlap_eq_false_iff c.start c.size virt size hwc.1 hs hwc.2 hv).mp this
    omega
  · intro h hc
    have hwc := hwf c hc
    rw [Bool.not_eq_true']
    rw [ranges_overlap_eq_false_iff c.start c.size virt size hwc.1 hs hwc.2 hv]
    have := h hc
    omega

theorem vof_claim_avail_eq_false_iff (claimed : List OfClaimed) (virt size : Nat)
    (hwf : WFclaims claimed) (hs : 0 < size) (hv : virt + size ≤ U64) :
    vof_claim_avail claimed virt size = false ↔ ¬ disjointFromAll claimed virt size := by
  rw [← vof_claim_avail_iff claimed virt size hwf hs hv]
  cases vof_claim_avail claimed virt size <;> simp

theorem alignUp_bounds (n m : Nat) (hm : 0 < m) (h : n + m ≤ U64) :
    n ≤ alignUp n m ∧ alignUp n m ≤ n + m - 1 := by
  unfold alignUp
  have h1 : n + m + (U64 - 1) = (n + m - 1) + U64 := by
    have hU : 0 < U64 := by unfold U64; positivity
    omega
  rw [h1, Nat.add_mod_right, Nat.mod_eq_of_lt (by omega)]
  have hd := Nat.div_add_mod (n + m - 1) m
  have hlt : (n + m - 1) % m < m := Nat.mod_lt _ hm
  have h2 : (n + m - 1) / m * m = m * ((n + m - 1) / m) := Nat.mul_comm _ _
  omega

/-- Soundness of a successful probe-loop run: the returned address is the
final cursor value, lies below the bound, and passed the availability test. -/
theorem vof_claim_loop_some (claimed : List OfClaimed) (top size : Nat) :
    ∀ (fuel base b a : Nat),
      vof_claim_loop claimed top size fuel base = (b, some a) →
      a = b ∧ a < top ∧ vof_claim_avail claimed a size = true := by
  intro fuel
  induction fuel with
  | zero => intro base b a h; simp [vof_claim_loop] at h
  | succ n ih =>
    intro base b a h
    unfold vof_claim_loop at h
    split at h
    · simp at h
    · split at h
      · rename_i hlt hav
        obtain ⟨hb, ha⟩ := Prod.mk.injEq .. ▸ h
        cases ha
        cases hb
        exact ⟨rfl, by omega, hav⟩
      · exact ih _ b a h

/-- First-fit characterisation of the probe loop (no-wrap conditions): if the
`k`-th probe of the arithmetic progression is the first available one below
the bound, the loop stops exactly there. -/
theorem vof_claim_loop_first_fit (claimed : List OfClaimed) (top size : Nat)
    (hs : 0 < size) (htop : size + top ≤ U64) :
    ∀ (k fuel base : Nat),
      k + 1 ≤ fuel →
      base + k * size < top →
      vof_claim_avail claimed (base + k * size) size = true →
      (∀ j < k, vof_claim_avail claimed (base + j * size) size = false) →
      vof_claim_loop claimed top size fuel base =
        (base + k * size, some (base + k * size)) := by
  intro k
  induction k with
  | zero =>
    intro fuel base hfuel hlt hav _
    obtain ⟨f, rfl⟩ : ∃ f, fuel = f + 1 := ⟨fuel - 1, by omega⟩
    simp only [Nat.zero_mul, Nat.add_zero] at hlt hav ⊢
    unfold vof_claim_loop
    rw [if_neg (by omega), if_pos hav]
  | succ k ih =>
    intro fuel base hfuel hlt hav hmin
    obtain ⟨f, rfl⟩ : ∃ f, fuel = f + 1 := ⟨fuel - 1, by omega⟩
    have hks : (k + 1) * size = k * size + size := by ring
    have hbase : base ≤ base + (k + 1) * size := by omega
    unfold vof_claim_loop
    rw [if_neg (by omega)]
    have h0 := hmin 0 (by omega)
    simp only [Nat.zero_mul, Nat.add_zero] at h0
    rw [h0]
    simp only [Bool.false_eq_true, if_false]
    have hnw : (base + size) % U64 = base + size := by
      apply Nat.mod_eq_of_lt
      omega
    rw [hnw]
    have := ih f (base + size) (by omega) (by omega)
      (by rw [hks] at hav; rw [show base + size + k * size = base + (k * size + size) by omega]
          exact hav)
      (by intro j hj
          have := hmin (j + 1) (by omega)
          rw [show (j + 1) * size = j * size + size by ring] at this
          rw [show base + size + j * size = base + (j * size + size) by omega]
          exact this)
    rw [this, hks]
    rw [show base + size + k * size = base + (k * size + size) by omega]

/-- Exhaustion characterisation of the probe loop (no-wrap conditions): if no
probe below the bound is available and the fuel dominates the distance to the
bound, the loop fails with the cursor at or above the bound. -/
theorem vof_claim_loop_none (claimed : List OfClaimed) (top size : Nat)
    (hs : 0 < size) (htop : size + top ≤ U64) :
    ∀ (fuel base : Nat),
      top < base + fuel →
      (∀ k, base + k * size < top → vof_claim_avail claimed (base + k * size) size = false) →
      ∃ b, vof_claim_loop claimed top size fuel base = (b, none) ∧ top ≤ b := by
  intro fuel
  induction fuel with
  | zero => intro base hf _; exact ⟨base, by simp [vof_claim_loop], by omega⟩
  | succ n ih =>
    intro base hf hun
    by_cases hb : top ≤ base
    · exact ⟨base, by unfold vof_claim_loop; rw [if_pos hb], hb⟩
    · have h0 := hun 0 (by omega)
      simp only [Nat.zero_mul, Nat.add_zero] at h0
      have hnw : (base + size) % U64 = base + size := by
        apply Nat.mod_eq_of_lt; omega
      obtain ⟨b, hloop, hbt⟩ := ih (base + size)
        (by omega)
        (by intro k hk
            have := hun (k + 1) (by rw [show (k + 1) * size = k * size + size by ring]; omega)
            rw [show (k + 1) * size = k * size + size by ring] at this
            rw [show base + size + k * size = base + (k * size + size) by omega]
            exact this)
      refine ⟨b, ?_, hbt⟩
      unfold vof_claim_loop
      rw [if_neg hb, h0]
      simp only [Bool.false_eq_true, if_false]
      rw [hnw]
      exact hloop

theorem U32_lt_U64m1 : U32 < U64 - 1 := by unfold U32 U64; norm_num

/-! ### Claims about the allocator -/

/-- C1: with `align = 0`, a zero-size claim returns `-1`; a positive-size
claim returns `virt` exactly when `[virt, virt + size)` overlaps no held
range and `-1` otherwise; and on a fresh table `claim(0, 0x8000, 0)` followed
by `claim(0, 0x1000, 0)` makes the second call fail. -/
theorem claim_fixed_address_spec :
    (∀ (vof : Vof) (virt size : Nat), WFclaims vof.claimed → virt + size ≤ U64 →
      (size = 0 → (vof_claim vof virt size 0).2 = U64 - 1) ∧
      (0 < size →
        (disjointFromAll vof.claimed virt size → (vof_claim vof virt size 0).2 = virt) ∧
        (¬ disjointFromAll vof.claimed virt size →
          (vof_claim vof virt size 0).2 = U64 - 1)))
    ∧
    (vof_claim (vof_claim (freshTable (4 * GiB)) 0 0x8000 0).1 0 0x1000 0).2 = U64 - 1 := by
  constructor
  · intro vof virt size hwf hb
    constructor
    · intro h0; subst h0; simp [vof_claim]
    · intro hs
      constructor
      · intro hd
        have hav : vof_claim_avail vof.claimed virt size = true :=
          (vof_claim_avail_iff _ _ _ hwf hs hb).mpr hd
        unfold vof_claim
        rw [if_neg (by omega), if_pos rfl, hav]
        simp only [if_true]
        unfold vof_claim_finish
        split <;> rfl
      · intro hd
        have hav : vof_claim_avail vof.claimed virt size = false :=
          (vof_claim_avail_eq_false_iff _ _ _ hwf hs hb).mpr hd
        unfold vof_claim
        rw [if_neg (by omega), if_pos rfl, hav]
        simp
  · decide

/-- Witness for C1: the hypotheses hold on a fresh table claiming
`[0, 0x8000)`, and the claim then succeeds returning `virt = 0`. -/
theorem claim_fixed_address_spec_witness :
    WFclaims (freshTable (4 * GiB)).claimed ∧ (0 : Nat) + 0x8000 ≤ U64 ∧
    (0 : Nat) < 0x8000 ∧ disjointFromAll (freshTable (4 * GiB)).claimed 0 0x8000 ∧
    (vof_claim (freshTable (4 * GiB)) 0 0x8000 0).2 = 0 :=
  ⟨by decide, by decide, by decide, by decide,
   ((claim_fixed_address_spec.1 (freshTable (4 * GiB)) 0 0x8000 (by decide)
      (by decide)).2 (by decide)).1 (by decide)⟩

/-- C2: with `align > 0` and `size > 0`, the allocator aligns the rolling
cursor up, probes forward in `size` steps, fails with `-1` when every probe
below `top_addr` is occupied (cursor reached the bound), and otherwise
returns the first fitting probe, appends the range and sets the cursor to
`max(old cursor, address + size)`.  Scenario: after `claim(0, 0x1000, 0)` on
a fresh table, `claim(0, 0x2000, 0x1000)` returns `0x1000`. -/
theorem claim_auto_placement_spec :
    (∀ (vof : Vof) (virt size align : Nat),
      WFclaims vof.claimed → vof.top_addr ≤ U32 → 0 < size → 0 < align →
      size + vof.top_addr ≤ U64 → vof.claimed_base + align ≤ U64 →
      ((∀ k, alignUp vof.claimed_base align + k * size < vof.top_addr →
          ¬ disjointFromAll vof.claimed (alignUp vof.claimed_base align + k * size) size) →
        (vof_claim vof virt size align).2 = U64 - 1 ∧
        (vof_claim vof virt size align).1.claimed = vof.claimed) ∧
      (∀ k, alignUp vof.claimed_base align + k * size < vof.top_addr →
        disjointFromAll vof.claimed (alignUp vof.claimed_base align + k * size) size →
        (∀ j < k, ¬ disjointFromAll vof.claimed (alignUp vof.claimed_base align + j * size) size) →
        (vof_claim vof virt size align).2 = alignUp vof.claimed_base align + k * size ∧
        (vof_claim vof virt size align).1.claimed
          = vof_claim_add vof.claimed (alignUp vof.claimed_base align + k * size) size ∧
        (vof_claim vof virt size align).1.claimed_base
          = max vof.claimed_base (alignUp vof.claimed_base align + k * size + size)))
    ∧
    (vof_claim (vof_claim (freshTable GiB) 0 0x1000 0).1 0 0x2000 0x1000).2 = 0x1000 := by
  constructor
  · intro vof virt size align hwf htop hs ha hst hba
    have hb0 := alignUp_bounds vof.claimed_base align ha hba
    constructor
    · intro hun
      obtain ⟨b, hloop, hbt⟩ := vof_claim_loop_none vof.claimed vof.top_addr size hs hst
        (vof.top_addr + 2) (alignUp vof.claimed_base align)
        (by omega)
        (by intro k hk
            exact (vof_claim_avail_eq_false_iff _ _ _ hwf hs (by omega)).mpr (hun k hk))
      unfold vof_claim
      rw [if_neg (by omega), if_neg (by omega), hloop]
      exact ⟨rfl, rfl⟩
    · intro k hk hd hmin
      have hk1 : k ≤ k * size := Nat.le_mul_of_pos_right k hs
      have hloop := vof_claim_loop_first_fit vof.claimed vof.top_addr size hs hst
        k (vof.top_addr + 2) (alignUp vof.claimed_base align)
        (by omega) hk
        ((vof_claim_avail_iff _ _ _ hwf hs (by omega)).mpr hd)
        (by intro j hj
            exact (vof_claim_avail_eq_false_iff _ _ _ hwf hs
              (by have : j * size ≤ k * size := Nat.mul_le_mul_right size (by omega)
                  omega)).mpr (hmin j hj))
      unfold vof_claim
      rw [if_neg (by omega), if_neg (by omega), hloop]
      have hne : ¬ (alignUp vof.claimed_base align + k * size = U64 - 1) := by
        have := U32_lt_U64m1
        omega
      dsimp only
      unfold vof_claim_finish
      rw [if_neg hne]
      refine ⟨rfl, rfl, ?_⟩
      have hmod : (alignUp vof.claimed_base align + k * size + size) % U64
          = alignUp vof.claimed_base align + k * size + size := by
        apply Nat.mod_eq_of_lt; omega
      simp only [hmod]
      omega
  · decide

/-- Witness for C2: the scenario state satisfies every hypothesis and the
theorem applied at `k = 0` returns the first aligned probe. -/
theorem claim_auto_placement_spec_witness :
    WFclaims ((vof_claim (freshTable GiB) 0 0x1000 0).1).claimed ∧
    ((vof_claim (freshTable GiB) 0 0x1000 0).1).top_addr ≤ U32 ∧
    (0 : Nat) < 0x2000 ∧ (0 : Nat) < 0x1000 ∧
    (vof_claim (vof_claim (freshTable GiB) 0 0x1000 0).1 0 0x2000 0x1000).2
      = alignUp ((vof_claim (freshTable GiB) 0 0x1000 0).1).claimed_base 0x1000
        + 0 * 0x2000 :=
  ⟨by decide, by decide, by decide, by decide,
   (((claim_auto_placement_spec.1 (vof_claim (freshTable GiB) 0 0x1000 0).1 0 0x2000 0x1000
      (by decide) (by decide) (by decide) (by decide) (by decide) (by decide)).2
      0 (by decide) (by decide) (by intro j hj; omega)).1)⟩

/-! ### Reachable states of the claim table -/

/-- A claim or release operation as dispatched by `vof_client_call`
(`hw/ppc/vof.c`); the client-interface argument slots are `uint32_t`. -/
inductive AllocOp
  | claim (virt size align : Nat)
  | release (virt size : Nat)

/-- Arguments of a dispatched operation fit in 32 bits. -/
def AllocOp.wf : AllocOp → Prop
  | .claim v s a => v < U32 ∧ s < U32 ∧ a < U32
  | .release _ _ => True

/-- Effect of one client operation on the session state. -/
def allocStep (vof : Vof) : AllocOp → Vof
  | .claim v s a => (vof_claim vof v s a).1
  | .release v s => (vof_release vof v s).1

/-- Run a sequence of client operations. -/
def allocRun (vof : Vof) (ops : List AllocOp) : Vof :=
  ops.foldl allocStep vof

/-- Invariant carried across operations: claimed ranges are well formed and
pairwise disjoint, and the allocation bound fits in 32 bits. -/
def AllocInv (vof : Vof) : Prop :=
  WFclaims vof.claimed ∧ NoOverlap vof.claimed ∧ vof.top_addr ≤ U32

theorem claim_insert_inv (claimed : List OfClaimed) (virt size : Nat)
    (hwf : WFclaims claimed) (hno : NoOverlap claimed)
    (hs : 0 < size) (hvs : virt + size ≤ U64)
    (hav : vof_claim_avail claimed virt size = true) :
    WFclaims (vof_claim_add claimed virt size) ∧
    NoOverlap (vof_claim_add claimed virt size) := by
  have hd := (vof_claim_avail_iff _ _ _ hwf hs hvs).mp hav
  constructor
  · intro c hc
    unfold vof_claim_add at hc
    rw [List.mem_append] at hc
    rcases hc with h1 | h2
    · exact hwf c h1
    · simp only [List.mem_singleton] at h2
      subst h2
      exact ⟨hs, hvs⟩
  · unfold NoOverlap vof_claim_add
    rw [List.pairwise_append]
    refine ⟨hno, List.pairwise_singleton _ _, ?_⟩
    intro c hc d hd'
    simp only [List.mem_singleton] at hd'
    subst hd'
    exact hd c hc

theorem vof_claim_preserves_inv (vof : Vof) (v s a : Nat)
    (h : AllocInv vof) (hv : v < U32) (hs : s < U32) :
    AllocInv (vof_claim vof v s a).1 := by
  obtain ⟨hwf, hno, htop⟩ := h
  unfold vof_claim
  by_cases hs0 : s = 0
  · rw [if_pos hs0]; exact ⟨hwf, hno, htop⟩
  rw [if_neg hs0]
  by_cases ha0 : a = 0
  · rw [if_pos ha0]
    cases hav : vof_claim_avail vof.claimed v s with
    | false => simp only [Bool.false_eq_true, if_false]; exact ⟨hwf, hno, htop⟩
    | true =>
      rw [if_pos rfl]
      have hvs : v + s ≤ U64 := by unfold U32 U64 at *; omega
      have hne : ¬ (v = U64 - 1) := by have := U32_lt_U64m1; omega
      unfold vof_claim_finish
      rw [if_neg hne]
      have := claim_insert_inv vof.claimed v s hwf hno (by omega) hvs hav
      exact ⟨this.1, this.2, htop⟩
  · rw [if_neg ha0]
    rcases hloop : vof_claim_loop vof.claimed vof.top_addr s (vof.top_addr + 2)
        (alignUp vof.claimed_base a) with ⟨b, ores⟩
    cases ores with
    | none => exact ⟨hwf, hno, htop⟩
    | some addr =>
      obtain ⟨heq, hlt, hav⟩ := vof_claim_loop_some _ _ _ _ _ _ _ hloop
      have hvs : addr + s ≤ U64 := by unfold U32 U64 at *; omega
      have hne : ¬ (addr = U64 - 1) := by have := U32_lt_U64m1; omega
      dsimp only
      unfold vof_claim_finish
      rw [if_neg hne]
      have := claim_insert_inv vof.claimed addr s hwf hno (by omega) hvs hav
      exact ⟨this.1, this.2, htop⟩

theorem vof_release_scan_sublist :
    ∀ (l : List OfClaimed) (v s : Nat) (l2 : List OfClaimed),
      vof_release_scan l v s = some l2 → l2.Sublist l := by
  intro l
  induction l with
  | nil => intro v s l2 h; simp [vof_release_scan] at h
  | cons c rest ih =>
    intro v s l2 h
    unfold vof_release_scan at h
    split at h
    · injection h with h
      subst h
      exact List.sublist_cons_self c rest
    · rcases h2 : vof_release_scan rest v s with _ | l3
      · rw [h2] at h; cases h
      · rw [h2] at h
        injection h with h
        subst h
        exact (ih v s l3 h2).cons₂ c

theorem vof_release_preserves_inv (vof : Vof) (v s : Nat)
    (h : AllocInv vof) : AllocInv (vof_release vof v s).1 := by
  obtain ⟨hwf, hno, htop⟩ := h
  unfold vof_release
  rcases hscan : vof_release_scan vof.claimed v s with _ | l
  · exact ⟨hwf, hno, htop⟩
  · have hsub := vof_release_scan_sublist _ _ _ _ hscan
    exact ⟨fun c hc => hwf c (hsub.subset hc), hno.sublist hsub, htop⟩

theorem allocRun_inv :
    ∀ (ops : List AllocOp) (vof : Vof), AllocInv vof →
      (∀ op ∈ ops, op.wf) → AllocInv (allocRun vof ops) := by
  intro ops
  induction ops with
  | nil => intro vof h _; exact h
  | cons op rest ih =>
    intro vof h hops
    have hstep : AllocInv (allocStep vof op) := by
      cases op with
      | claim v s a =>
        have hwfop := hops _ (List.mem_cons_self _ _)
        exact vof_claim_preserves_inv vof v s a h hwfop.1 hwfop.2.1
      | release v s => exact vof_release_preserves_inv vof v s h
    exact ih (allocStep vof op) hstep fun op2 h2 => hops op2 (List.mem_cons_of_mem _ h2)

/-- C3: from an initialized context (positive firmware self-claim), any
sequence of client claim/release operations leaves the claim table free of
overlapping ranges. -/
theorem no_overlap_invariant :
    ∀ (fw top : Nat) (ops : List AllocOp), 0 < fw → fw < U32 →
      (∀ op ∈ ops, op.wf) →
      NoOverlap (allocRun ((vof_init (Vof.initial fw) top).1) ops).claimed := by
  intro fw top ops hfw hfw2 hops
  have h4g : 4 * GiB = U32 := by unfold GiB U32; norm_num
  have hinit : AllocInv (vof_init (Vof.initial fw) top).1 := by
    have hbase : AllocInv (vof_init_base (Vof.initial fw) top) := by
      refine ⟨?_, ?_, ?_⟩
      · intro c hc
        simp [vof_init_base, Vof.initial] at hc
      · exact List.Pairwise.nil
      · have he : (vof_init_base (Vof.initial fw) top).top_addr = min top (4 * GiB) := rfl
        rw [he, ← h4g]
        exact min_le_right _ _
    have h := vof_claim_preserves_inv (vof_init_base (Vof.initial fw) top) 0 fw 0
      hbase (by unfold U32; positivity) hfw2
    exact h
  exact (allocRun_inv ops _ hinit hops).2.1

/-- Witness for C3: initialized context with a 4 KiB firmware claim plus one
in-range claim operation. -/
theorem no_overlap_invariant_witness :
    (0 : Nat) < 0x1000 ∧ (0x1000 : Nat) < U32 ∧
    NoOverlap (allocRun ((vof_init (Vof.initial 0x1000) (4 * GiB)).1)
      [AllocOp.claim 0x2000 0x1000 0]).claimed :=
  ⟨by decide, by decide,
   no_overlap_invariant 0x1000 (4 * GiB) [AllocOp.claim 0x2000 0x1000 0]
     (by decide) (by decide)
     (by intro op hop
         rw [List.mem_singleton] at hop
         subst hop
         exact ⟨by decide, by decide, by decide⟩)⟩

/-- State used for the C6 counterexample: an initialized context with a
4 KiB firmware claim and an upper bound of 0x2000. -/
def oomState : Vof := (vof_init (Vof.initial 0x1000) 0x2000).1

/-- Counterexample to C6 as stated: an auto-placement claim that fails with
out-of-memory still moves the rolling allocation cursor (it was aligned up
past the bound before the failure was detected). -/
theorem claim_oom_moves_cursor :
    (vof_claim oomState 0 0x800 0x4000).2 = U64 - 1 ∧
    (vof_claim oomState 0 0x800 0x4000).1.claimed = oomState.claimed ∧
    (vof_claim oomState 0 0x800 0x4000).1.claimed_base ≠ oomState.claimed_base := by
  refine ⟨by decide, by decide, by decide⟩

/-- C6 (amended): a failing claim returns `-1` and leaves the set of held
ranges unchanged; when the failure is a zero-size request or a fixed-address
overlap (`align = 0`), the whole state — rolling cursor included — is
unchanged.  (An auto-placement out-of-memory failure may advance the
cursor.) -/
theorem claim_failure_ranges_unchanged :
    ∀ (vof : Vof) (virt size align : Nat),
      (vof_claim vof virt size align).2 = U64 - 1 →
      (vof_claim vof virt size align).1.claimed = vof.claimed ∧
      (align = 0 → (vof_claim vof virt size align).1 = vof) := by
  intro vof virt size align
  unfold vof_claim
  by_cases hs0 : size = 0
  · rw [if_pos hs0]; intro _; exact ⟨rfl, fun _ => rfl⟩
  rw [if_neg hs0]
  by_cases ha0 : align = 0
  · rw [if_pos ha0]
    cases hav : vof_claim_avail vof.claimed virt size with
    | false =>
      simp only [Bool.false_eq_true, if_false]
      intro _
      exact ⟨by simp, fun _ => by simp⟩
    | true =>
      rw [if_pos rfl]
      unfold vof_claim_finish
      by_cases hv : virt = U64 - 1
      · rw [if_pos hv]; intro _; exact ⟨rfl, fun _ => rfl⟩
      · rw [if_neg hv]; intro h; exact absurd h hv
  · rw [if_neg ha0]
    rcases hloop : vof_claim_loop vof.claimed vof.top_addr size (vof.top_addr + 2)
        (alignUp vof.claimed_base align) with ⟨b, ores⟩
    cases ores with
    | none =>
      intro _
      exact ⟨rfl, fun ha => absurd ha ha0⟩
    | some addr =>
      dsimp only
      unfold vof_claim_finish
      by_cases haddr : addr = U64 - 1
      · rw [if_pos haddr]; intro _; exact ⟨rfl, fun ha => absurd ha ha0⟩
      · rw [if_neg haddr]; intro h; exact absurd h haddr

/-- Witness for C6 (amended): a zero-size claim fails and the whole state is
unchanged. -/
theorem claim_failure_ranges_unchanged_witness :
    (vof_claim oomState 5 0 0).2 = U64 - 1 ∧
    (vof_claim oomState 5 0 0).1 = oomState :=
  ⟨by decide,
   (claim_failure_ranges_unchanged oomState 5 0 0 (by decide)).2 rfl⟩

theorem vof_release_scan_none_iff :
    ∀ (l : List OfClaimed) (v s : Nat),
      vof_release_scan l v s = none ↔ ∀ c ∈ l, ¬(c.start = v ∧ c.size = s) := by
  intro l
  induction l with
  | nil => intro v s; simp [vof_release_scan]
  | cons c rest ih =>
    intro v s
    unfold vof_release_scan
    by_cases hc : c.start = v ∧ c.size = s
    · rw [if_pos hc]
      constructor
      · intro h; cases h
      · intro h; exact absurd hc (h c (List.mem_cons_self c rest))
    · rw [if_neg hc]
      rcases h2 : vof_release_scan rest v s with _ | l3
      · constructor
        · intro _ c2 hc2
          rcases List.mem_cons.mp hc2 with rfl | hmem
          · exact hc
          · exact (ih v s).mp h2 c2 hmem
        · intro _; rfl
      · constructor
        · intro h; cases h
        · intro hall
          have := (ih v s).mpr fun c2 hc2 => hall c2 (List.mem_cons_of_mem c hc2)
          rw [this] at h2
          cases h2

theorem vof_release_scan_some :
    ∀ (l : List OfClaimed) (v s : Nat) (l2 : List OfClaimed),
      vof_release_scan l v s = some l2 →
      ∃ l1 l3, l = l1 ++ ⟨v, s⟩ :: l3 ∧ l2 = l1 ++ l3 ∧
        ∀ c ∈ l1, ¬(c.start = v ∧ c.size = s) := by
  intro l
  induction l with
  | nil => intro v s l2 h; simp [vof_release_scan] at h
  | cons c rest ih =>
    intro v s l2 h
    unfold vof_release_scan at h
    by_cases hc : c.start = v ∧ c.size = s
    · rw [if_pos hc] at h
      injection h with h
      subst h
      have hcv : c = ⟨v, s⟩ := by
        obtain ⟨h1, h2⟩ := hc
        cases c
        simp only at h1 h2
        rw [h1, h2]
      refine ⟨[], rest, ?_, rfl, by intro c2 hc2; cases hc2⟩
      rw [hcv]
      rfl
    · rw [if_neg hc] at h
      rcases h2 : vof_release_scan rest v s with _ | l3
      · rw [h2] at h; cases h
      · rw [h2] at h
        injection h with h
        subst h
        obtain ⟨l1, l4, he, he2, hmin⟩ := ih v s l3 h2
        refine ⟨c :: l1, l4, by rw [he]; rfl, by rw [he2]; rfl, ?_⟩
        intro c2 hc2
        rcases List.mem_cons.mp hc2 with rfl | hmem
        · exact hc
        · exact hmin c2 hmem

/-- C7: release succeeds (returning 0) and removes a held range exactly when
some held range matches both start and size bit for bit; any other call —
including a proper sub-range of a held range — returns `-1` and leaves the
state unchanged. -/
theorem release_exact_match_spec :
    ∀ (vof : Vof) (virt size : Nat),
      ((∃ c ∈ vof.claimed, c.start = virt ∧ c.size = size) →
        (vof_release vof virt size).2 = 0 ∧
        ∃ l1 l2, vof.claimed = l1 ++ ⟨virt, size⟩ :: l2 ∧
          (vof_release vof virt size).1 = { vof with claimed := l1 ++ l2 } ∧
          ∀ c ∈ l1, ¬(c.start = virt ∧ c.size = size)) ∧
      ((¬ ∃ c ∈ vof.claimed, c.start = virt ∧ c.size = size) →
        (vof_release vof virt size).2 = U32 - 1 ∧
        (vof_release vof virt size).1 = vof) := by
  intro vof virt size
  constructor
  · intro hex
    rcases hscan : vof_release_scan vof.claimed virt size with _ | l
    · exfalso
      obtain ⟨c, hc, hm⟩ := hex
      exact ((vof_release_scan_none_iff _ _ _).mp hscan) c hc hm
    · obtain ⟨l1, l3, he, he2, hmin⟩ := vof_release_scan_some _ _ _ _ hscan
      unfold vof_release
      rw [hscan]
      exact ⟨rfl, l1, l3, he, by rw [he2], hmin⟩
  · intro hnex
    have hnone : vof_release_scan vof.claimed virt size = none := by
      rw [vof_release_scan_none_iff]
      intro c hc hm
      exact hnex ⟨c, hc, hm⟩
    unfold vof_release
    rw [hnone]
    exact ⟨rfl, rfl⟩

/-- Witness for C7: both the exact-match success and the sub-range failure,
on a table holding exactly `[0x7000, 0x7000 + 0x2000)`. -/
theorem release_exact_match_spec_witness :
    (∃ c ∈ ({ freshTable GiB with claimed := [⟨0x7000, 0x2000⟩] } : Vof).claimed,
      c.start = 0x7000 ∧ c.size = 0x2000) ∧
    (vof_release { freshTable GiB with claimed := [⟨0x7000, 0x2000⟩] } 0x7000 0x2000).2 = 0 ∧
    (¬ ∃ c ∈ ({ freshTable GiB with claimed := [⟨0x7000, 0x2000⟩] } : Vof).claimed,
      c.start = 0x7000 ∧ c.size = 0x1000) ∧
    (vof_release { freshTable GiB with claimed := [⟨0x7000, 0x2000⟩] } 0x7000 0x1000).2 = U32 - 1 :=
  ⟨by decide,
   ((release_exact_match_spec { freshTable GiB with claimed := [⟨0x7000, 0x2000⟩] }
      0x7000 0x2000).1 (by decide)).1,
   by decide,
   ((release_exact_match_spec { freshTable GiB with claimed := [⟨0x7000, 0x2000⟩] }
      0x7000 0x1000).2 (by decide)).1⟩

/-- C10: the upper memory bound constrains only auto-placement; a
fixed-address claim that overlaps nothing succeeds — and records the range —
even when it lies entirely at or above `top_addr`. -/
theorem fixed_claim_ignores_top_addr :
    ∀ (vof : Vof) (virt size : Nat),
      WFclaims vof.claimed → 0 < size → virt + size < U64 →
      vof.top_addr ≤ virt →
      disjointFromAll vof.claimed virt size →
      (vof_claim vof virt size 0).2 = virt ∧
      (vof_claim vof virt size 0).1.claimed = vof_claim_add vof.claimed virt size := by
  intro vof virt size hwf hs hb htop hd
  have hav := (vof_claim_avail_iff _ _ _ hwf hs (by omega)).mpr hd
  unfold vof_claim
  rw [if_neg (by omega), if_pos rfl, hav, if_pos rfl]
  unfold vof_claim_finish
  rw [if_neg (by omega)]
  exact ⟨rfl, rfl⟩

/-- Witness for C10: with the bound at 0x2000, a fixed claim of
`[0x100000, 0x101000)` — entirely above the bound — succeeds. -/
theorem fixed_claim_ignores_top_addr_witness :
    WFclaims oomState.claimed ∧ (0 : Nat) < 0x1000 ∧
    (0x100000 : Nat) + 0x1000 < U64 ∧ oomState.top_addr ≤ 0x100000 ∧
    disjointFromAll oomState.claimed 0x100000 0x1000 ∧
    (vof_claim oomState 0x100000 0x1000 0).2 = 0x100000 :=
  ⟨by decide, by decide, by decide, by decide, by decide,
   (fixed_claim_ignores_top_addr oomState 0x100000 0x1000 (by decide) (by decide)
     (by decide) (by decide) (by decide)).1⟩

/-! ### Device tree model and the property services -/

/-- Byte strings (property values, guest buffers) as lists of byte values. -/
abbrev Bytes := List Nat

/-- ASCII bytes of a string (node names are ASCII in the device tree). -/
def strBytes (s : String) : Bytes :=
  s.toList.map Char.toNat

/-- Modelled from the spec: a device-tree node as the embedded services see
it through libfdt (which is not under the embedded sources): full path, node
name (last path component, possibly carrying a `@unit` suffix), phandle, and
the stored properties in on-disk order. -/
structure FdtNode where
  path : String
  name : String
  phandle : Nat
  props : List (String × Bytes)
deriving DecidableEq

/-- A flattened device tree, as the list of its nodes. -/
abbrev Fdt := List FdtNode

/-- Modelled from the spec: libfdt's `fdt_node_offset_by_phandle` (not under
the embedded sources) — find the node carrying the given phandle; the values
0 and `-1` are invalid phandles. -/
def fdt_node_offset_by_phandle (fdt : Fdt) (ph : Nat) : Option FdtNode :=
  if ph = 0 ∨ ph = U32 - 1 then none
  else fdt.find? fun n => n.phandle = ph

/-- Reported length of the virtual "name" property of a node, as computed by
`getprop` in `hw/ppc/vof.c`: the base name up to the `@unit` suffix (byte 64
is `@`) plus one trailing byte. -/
def name_true_len (node : FdtNode) : Nat :=
  (((strBytes node.name).findIdx? fun b => b = 64).getD (strBytes node.name).length) + 1

/-- Function `getprop` from `hw/ppc/vof.c`: property lookup with emulation of
the virtual "name" property.  Returns the source buffer, the reported
property length and the `write0` flag; for "name" the buffer is the
NUL-terminated node name and `write0` asks the caller to patch a final
terminator over a `@unit` suffix. -/
def getprop (node : FdtNode) (propname : String) : Option (Bytes × Nat × Bool) :=
  if propname = "name" then
    some (strBytes node.name ++ [0], name_true_len node, true)
  else
    match node.props.lookup propname with
    | some v => some (v, v.length, false)
    | none => none

/-- Function `vof_getprop` from `hw/ppc/vof.c`.  The guest-memory transfer is
modelled by returning the bytes written at `valaddr`: the prefix of length
`min proplen vallen` of the source buffer, with the terminating zero patched
over the last copied byte when `write0` is set and the copy was complete.
The property name is the string read via `readstr` (which fails for names
over 64 bytes); the result is `2 ^ 32 - 1` (C `-1`) when the node or the
property is absent, otherwise the true property length even when the copy
was truncated. -/
def vof_getprop (fdt : Fdt) (nodeph : Nat) (propname : String) (vallen : Nat) :
    Nat × Bytes :=
  match fdt_node_offset_by_phandle fdt nodeph with
  | none => (U32 - 1, [])
  | some node =>
    if 64 < propname.length then (U32 - 1, [])
    else
      match getprop node propname with
      | none => (U32 - 1, [])
      | some (buf, proplen, write0) =>
        let cb := min proplen vallen
        if write0 ∧ cb = proplen then (proplen, buf.take (cb - 1) ++ [0])
        else (proplen, buf.take cb)

/-- Function `vof_getproplen` from `hw/ppc/vof.c`: same lookups as
`vof_getprop`, returning only the true property length, or `-1`. -/
def vof_getproplen (fdt : Fdt) (nodeph : Nat) (propname : String) : Nat :=
  match fdt_node_offset_by_phandle fdt nodeph with
  | none => U32 - 1
  | some node =>
    if 64 < propname.length then U32 - 1
    else
      match getprop node propname with
      | some (_, proplen, _) => proplen
      | none => U32 - 1

/-- C5: for an existing stored property of true length `L`, `getprop` with
`maxLen ≥ L` copies exactly the `L` value bytes and returns `L`; with
`maxLen < L` it copies exactly the first `maxLen` bytes yet still returns
`L`; for an absent property it returns `-1`; `getproplen` returns the same
`L`, so `getproplen` followed by `getprop` yields a buffer of exactly that
length.  The virtual "name" property obeys the same length contract with its
emulated length. -/
theorem vof_getprop_eq (fdt : Fdt) (ph : Nat) (pname : String) (vallen : Nat)
    (node : FdtNode) (h : fdt_node_offset_by_phandle fdt ph = some node)
    (hn : ¬ 64 < pname.length) :
    vof_getprop fdt ph pname vallen =
      match getprop node pname with
      | none => (U32 - 1, [])
      | some (buf, proplen, write0) =>
        let cb := min proplen vallen
        if write0 ∧ cb = proplen then (proplen, buf.take (cb - 1) ++ [0])
        else (proplen, buf.take cb) := by
  unfold vof_getprop
  rw [h]
  dsimp only
  rw [if_neg hn]

theorem vof_getproplen_eq (fdt : Fdt) (ph : Nat) (pname : String)
    (node : FdtNode) (h : fdt_node_offset_by_phandle fdt ph = some node)
    (hn : ¬ 64 < pname.length) :
    vof_getproplen fdt ph pname =
      match getprop node pname with
      | some (_, proplen, _) => proplen
      | none => U32 - 1 := by
  unfold vof_getproplen
  rw [h]
  dsimp only
  rw [if_neg hn]

/-- C5: for an existing stored property of true length `L`, `getprop` with
`maxLen ≥ L` copies exactly the `L` value bytes and returns `L`; with
`maxLen < L` it copies exactly the first `maxLen` bytes yet still returns
`L`; for an absent property it returns `-1`; `getproplen` returns the same
`L`, so `getproplen` followed by `getprop` yields a buffer of exactly that
length.  The virtual "name" property obeys the same length contract with its
emulated length. -/
theorem getprop_true_length_spec :
    ∀ (fdt : Fdt) (ph : Nat) (pname : String) (node : FdtNode) (v : Bytes),
      fdt_node_offset_by_phandle fdt ph = some node →
      pname ≠ "name" → pname.length ≤ 64 →
      ((node.props.lookup pname = some v →
        (∀ maxLen, v.length ≤ maxLen →
          vof_getprop fdt ph pname maxLen = (v.length, v)) ∧
        (∀ maxLen, maxLen < v.length →
          vof_getprop fdt ph pname maxLen = (v.length, v.take maxLen)) ∧
        vof_getproplen fdt ph pname = v.length ∧
        (vof_getprop fdt ph pname (vof_getproplen fdt ph pname)).2.length = v.length) ∧
       (node.props.lookup pname = none →
        (∀ maxLen, vof_getprop fdt ph pname maxLen = (U32 - 1, [])) ∧
        vof_getproplen fdt ph pname = U32 - 1) ∧
       (∀ maxLen, name_true_len node ≤ maxLen →
        vof_getprop fdt ph "name" maxLen
          = (name_true_len node,
             (strBytes node.name ++ [0]).take (name_true_len node - 1) ++ [0])) ∧
       (∀ maxLen, maxLen < name_true_len node →
        vof_getprop fdt ph "name" maxLen
          = (name_true_len node, (strBytes node.name ++ [0]).take maxLen)) ∧
       vof_getproplen fdt ph "name" = name_true_len node) := by
  intro fdt ph pname node v hnode hname hlen
  have hn4 : ¬ (64 < pname.length) := by omega
  have hname4 : ¬ (64 < ("name" : String).length) := by decide
  have hgpn : getprop node "name"
      = some (strBytes node.name ++ [0], name_true_len node, true) := by
    unfold getprop
    rw [if_pos rfl]
  refine ⟨?_, ?_, ?_, ?_, ?_⟩
  · intro hv
    have hgp : getprop node pname = some (v, v.length, false) := by
      unfold getprop
      rw [if_neg hname, hv]
    have hplen : vof_getproplen fdt ph pname = v.length := by
      rw [vof_getproplen_eq fdt ph pname node hnode hn4, hgp]
    have hfull : vof_getprop fdt ph pname v.length = (v.length, v) := by
      rw [vof_getprop_eq fdt ph pname v.length node hnode hn4, hgp]
      dsimp only
      rw [min_self]
      rw [if_neg (by simp)]
      rw [List.take_length]
    refine ⟨?_, ?_, hplen, ?_⟩
    · intro maxLen hm
      rw [vof_getprop_eq fdt ph pname maxLen node hnode hn4, hgp]
      dsimp only
      rw [min_eq_left hm]
      rw [if_neg (by simp)]
      rw [List.take_length]
    · intro maxLen hm
      rw [vof_getprop_eq fdt ph pname maxLen node hnode hn4, hgp]
      dsimp only
      rw [min_eq_right (by omega)]
      rw [if_neg (by simp)]
    · rw [hplen, hfull]
  · intro hv
    have hgp : getprop node pname = none := by
      unfold getprop
      rw [if_neg hname, hv]
    constructor
    · intro maxLen
      rw [vof_getprop_eq fdt ph pname maxLen node hnode hn4, hgp]
    · rw [vof_getproplen_eq fdt ph pname node hnode hn4, hgp]
  · intro maxLen hm
    rw [vof_getprop_eq fdt ph "name" maxLen node hnode hname4, hgpn]
    dsimp only
    rw [min_eq_left hm]
    rw [if_pos ⟨rfl, rfl⟩]
  · intro maxLen hm
    rw [vof_getprop_eq fdt ph "name" maxLen node hnode hname4, hgpn]
    dsimp only
    rw [min_eq_right (by omega)]
    rw [if_neg (by omega)]
  · rw [vof_getproplen_eq fdt ph "name" node hnode hname4, hgpn]

/-- Device tree used in witnesses: a `/chosen` node with a bootargs string. -/
def demoFdt : Fdt :=
  [⟨"/", "", 1, [("device_type", [1])]⟩,
   ⟨"/chosen", "chosen", 5, [("bootargs", [99, 111, 110, 0])]⟩]

/-- Witness for C5: on a concrete tree, both the stored-property and the
absent-property contracts, instantiated. -/
theorem getprop_true_length_spec_witness :
    fdt_node_offset_by_phandle demoFdt 5
      = some ⟨"/chosen", "chosen", 5, [("bootargs", [99, 111, 110, 0])]⟩ ∧
    ("bootargs" : String) ≠ "name" ∧ ("bootargs" : String).length ≤ 64 ∧
    vof_getprop demoFdt 5 "bootargs" 64 = (4, [99, 111, 110, 0]) ∧
    vof_getprop demoFdt 5 "bootargs" 2 = (4, [99, 111]) ∧
    vof_getproplen demoFdt 5 "bootargs" = 4 :=
  ⟨by decide, by decide, by decide,
   (((getprop_true_length_spec demoFdt 5 "bootargs"
       ⟨"/chosen", "chosen", 5, [("bootargs", [99, 111, 110, 0])]⟩
       [99, 111, 110, 0] (by decide) (by decide) (by decide)).1 (by decide)).1
     64 (by decide)),
   (((getprop_true_length_spec demoFdt 5 "bootargs"
       ⟨"/chosen", "chosen", 5, [("bootargs", [99, 111, 110, 0])]⟩
       [99, 111, 110, 0] (by decide) (by decide) (by decide)).1 (by decide)).2.1
     2 (by decide)),
   (((getprop_true_length_spec demoFdt 5 "bootargs"
       ⟨"/chosen", "chosen", 5, [("bootargs", [99, 111, 110, 0])]⟩
       [99, 111, 110, 0] (by decide) (by decide) (by decide)).1 (by decide)).2.2.1)⟩

/-! ### The setprop service and its policy hook -/

/-- Machine-level state mutated by the sPAPR property-write policy hook
(`hw/ppc/spapr_vof.c`): the initrd bounds kept on the machine. -/
structure SpaprMachine where
  initrd_base : Nat
  initrd_size : Nat
deriving DecidableEq

/-- Big-endian integer load of a byte buffer (`ldl_be_p` on 4 bytes,
`ldq_be_p` on 8 bytes). -/
def beBytes (v : Bytes) : Nat :=
  v.foldl (fun acc b => acc * 256 + b % 256) 0

/-- Function `spapr_vof_setprop` from `hw/ppc/spapr_vof.c`: the
property-write policy hook.  Returns the verdict together with the updated
VOF and machine state.  Note that the final statement of the C function is
`return true`: every node/property pair not explicitly handled is accepted. -/
def spapr_vof_setprop (vof : Vof) (spapr : SpaprMachine) (path propname : String)
    (val : Bytes) (vallen : Nat) : Bool × Vof × SpaprMachine :=
  if path = "/rtas" ∧ (propname = "linux,rtas-base" ∨ propname = "linux,rtas-entry") then
    (true, vof, spapr)
  else if path = "/chosen" ∧ propname = "bootargs" then
    (true, { vof with bootargs := val.takeWhile fun b => decide (b ≠ 0) }, spapr)
  else if path = "/chosen" ∧ propname = "linux,initrd-start" then
    if vallen = 4 ∨ vallen = 8 then
      (true, vof, { spapr with initrd_base := beBytes val })
    else (false, vof, spapr)
  else if path = "/chosen" ∧ propname = "linux,initrd-end" then
    if vallen = 4 ∨ vallen = 8 then
      (true, vof,
       { spapr with
          initrd_size := (beBytes val + U64 - spapr.initrd_base % U64) % U64 })
    else (false, vof, spapr)
  else (true, vof, spapr)

/-- Modelled from the spec: libfdt's `fdt_setprop` on a property list (not
under the embedded sources) — replace the value of the named property, or
append the property at the end. -/
def fdt_setprop_list (props : List (String × Bytes)) (name : String) (v : Bytes) :
    List (String × Bytes) :=
  match props with
  | [] => [(name, v)]
  | (n, w) :: rest =>
    if n = name then (n, v) :: rest
    else (n, w) :: fdt_setprop_list rest name v

/-- Modelled from the spec: libfdt's `fdt_setprop` applied to a tree —
update the properties of the node with the given phandle. -/
def fdt_setprop (fdt : Fdt) (node : FdtNode) (name : String) (v : Bytes) : Fdt :=
  fdt.map fun n =>
    if n.phandle = node.phandle then { n with props := fdt_setprop_list n.props name v }
    else n

/-- Function `vof_setprop` from `hw/ppc/vof.c` with the sPAPR policy hook of
`hw/ppc/spapr_vof.c` wired in (the machine implements `VofMachineIfClass`).
Guest memory reads are modelled as given arguments: `propname` is the string
read by `readstr` (which fails above 64 bytes) and `val` is the `vallen`-byte
value buffer.  Returns the new tree, VOF and machine state, and the
`uint32_t` result: `vallen` on success, `2 ^ 32 - 1` (C `-1`) on failure. -/
def vof_setprop (fdt : Fdt) (vof : Vof) (spapr : SpaprMachine)
    (nodeph : Nat) (propname : String) (val : Bytes) (vallen : Nat) :
    Fdt × Vof × SpaprMachine × Nat :=
  if 2048 < vallen then (fdt, vof, spapr, U32 - 1)
  else if 64 < propname.length then (fdt, vof, spapr, U32 - 1)
  else
    match fdt_node_offset_by_phandle fdt nodeph with
    | none => (fdt, vof, spapr, U32 - 1)
    | some node =>
      match spapr_vof_setprop vof spapr node.path propname (val.take vallen) vallen with
      | (false, _, _) => (fdt, vof, spapr, U32 - 1)
      | (true, vof2, spapr2) =>
        (fdt_setprop fdt node propname (val.take vallen), vof2, spapr2, vallen)

/-- Tree and states used at the C4 failing input. -/
def demoVof : Vof := freshTable GiB

/-- Machine state used at the C4 failing input. -/
def demoSpapr : SpaprMachine := ⟨0, 0⟩

/-- C4 fails on the code: the policy hook accepts a property pair that is on
no allow-list (`/chosen` + `"foo"`), so `setprop` succeeds (returns the
value length) and mutates the device tree; only requests whose phandle
resolves to no node are rejected with `-1` and no change, as shown by the
second conjunct. -/
theorem setprop_accepts_unlisted_property :
    (vof_setprop demoFdt demoVof demoSpapr 5 "foo" [1, 2, 3] 3).2.2.2 = 3 ∧
    (vof_setprop demoFdt demoVof demoSpapr 5 "foo" [1, 2, 3] 3).1 ≠ demoFdt ∧
    (vof_setprop demoFdt demoVof demoSpapr 77 "foo" [1, 2, 3] 3)
      = (demoFdt, demoVof, demoSpapr, U32 - 1) := by
  refine ⟨by decide, by decide, by decide⟩

/-! ### The write service -/

/-- Modelled from the spec: the GuestMemoryAccessor — reading `len` bytes of
guest memory at `addr` either yields exactly `len` bytes or fails
(`BadAddress`). -/
def GuestMem := Nat → Nat → Option Bytes

/-- Transfer loop of `vof_write` (`hw/ppc/vof.c`): repeatedly read up to
`VOF_VTY_BUF_SIZE - 1 = 255` bytes of guest memory at `buf` and forward them
to the character backend if one is bound; hitting a block-device binding
forces `len` to `uint32_t` `-1` and breaks out.  Returns the final `len`
(the service result) together with the chunks forwarded to the character
stream and the chunks written to the block backend — the latter list is
never extended because the C loop has no block-write path. -/
def vof_write_go (inst : OfInstance) (gmem : GuestMem) (buf : Nat) :
    Nat → Nat → Nat × List Bytes × List Bytes
  | 0, len => (len, [], [])
  | fuel + 1, len =>
    if len = 0 then (len, [], [])
    else
      let cb := min len 255
      match gmem buf cb with
      | none => (U32 - 1, [], [])
      | some chunk =>
        let chr : List Bytes := if inst.cbe then [chunk] else []
        if inst.blk then (U32 - 1, chr, [])
        else
          let r := vof_write_go inst gmem buf fuel (len - cb)
          (r.1, chr ++ r.2.1, r.2.2)

/-- Entry point of the transfer loop with fuel `len`; every iteration of the
C loop consumes at least one byte of `len`, so `len` steps always suffice. -/
def vof_write_loop (inst : OfInstance) (gmem : GuestMem) (buf len : Nat) :
    Nat × List Bytes × List Bytes :=
  vof_write_go inst gmem buf len len

/-- Function `vof_write` from `hw/ppc/vof.c`: look up the ihandle and run the
transfer loop; an unknown ihandle fails with `-1`. -/
def vof_write (vof : Vof) (gmem : GuestMem) (ihandle buf len : Nat) :
    Nat × List Bytes × List Bytes :=
  match vof.of_instances.lookup ihandle with
  | none => (U32 - 1, [], [])
  | some inst => vof_write_loop inst gmem buf len

/-- C8 (amended): writing through a handle bound to a block device transfers
nothing to the block device, and fails with `-1` for every positive length;
a zero-length write, however, returns 0 without touching anything. -/
theorem write_block_device_protected :
    ∀ (vof : Vof) (gmem : GuestMem) (ih buf len : Nat) (inst : OfInstance),
      vof.of_instances.lookup ih = some inst → inst.blk = true →
      ((0 < len → (vof_write vof gmem ih buf len).1 = U32 - 1) ∧
       (len = 0 → (vof_write vof gmem ih buf len).1 = 0) ∧
       (vof_write vof gmem ih buf len).2.2 = []) := by
  intro vof gmem ih buf len inst hinst hblk
  have hw : vof_write vof gmem ih buf len = vof_write_loop inst gmem buf len := by
    unfold vof_write
    rw [hinst]
  rw [hw]
  unfold vof_write_loop
  by_cases h0 : len = 0
  · subst h0
    exact ⟨fun h => absurd h (by omega), fun _ => rfl, rfl⟩
  · obtain ⟨f, rfl⟩ : ∃ f, len = f + 1 := ⟨len - 1, by omega⟩
    unfold vof_write_go
    rw [if_neg h0]
    dsimp only
    rcases hg : gmem buf (min (f + 1) 255) with _ | chunk
    · exact ⟨fun _ => rfl, fun h => absurd h h0, rfl⟩
    · dsimp only
      rw [if_pos hblk]
      exact ⟨fun _ => rfl, fun h => absurd h h0, rfl⟩

/-- Instance bound to a block device, for the C8 witnesses. -/
def blkInst : OfInstance :=
  ⟨"/vdevice/v-scsi@71000003/disk", 9, true, false, true, 0⟩

/-- Session state holding the block-bound instance under ihandle 1. -/
def blkVof : Vof :=
  { freshTable GiB with of_instances := [(1, blkInst)], of_instance_last := 1 }

/-- Counterexample to C8 as stated: a zero-length write to a block-bound
handle returns 0, not `-1`. -/
theorem write_block_device_len0_returns_zero :
    (vof_write blkVof (fun _ _ => some []) 1 0x4000 0).1 = 0 ∧
    (0 : Nat) ≠ U32 - 1 := by
  refine ⟨by decide, by decide⟩

/-- Witness for C8 (amended): a 3-byte write to the block-bound handle fails
with `-1` and nothing reaches the block device. -/
theorem write_block_device_protected_witness :
    blkVof.of_instances.lookup 1 = some blkInst ∧ blkInst.blk = true ∧
    (vof_write blkVof (fun _ n => some (List.replicate n 7)) 1 0x4000 3).1 = U32 - 1 ∧
    (vof_write blkVof (fun _ n => some (List.replicate n 7)) 1 0x4000 3).2.2 = [] :=
  ⟨by decide, by decide,
   (write_block_device_protected blkVof (fun _ n => some (List.replicate n 7)) 1 0x4000 3
     blkInst (by decide) (by decide)).1 (by decide),
   (write_block_device_protected blkVof (fun _ n => some (List.replicate n 7)) 1 0x4000 3
     blkInst (by decide) (by decide)).2.2⟩

/-! ### The open service -/

/-- Index of the last `:` in a path (`memrchr(path, ':', pathlen)` in
`vof_do_open`), marking an optional `:params` suffix. -/
def lastColonIdx (s : String) : Option Nat :=
  match s.toList.reverse.findIdx? fun c => c = ':' with
  | some j => some (s.length - 1 - j)
  | none => none

/-- Modelled from the spec: libfdt's `fdt_path_offset_namelen` (not under the
embedded sources) — resolve the first `n` characters of `path` as an exact
node path. -/
def fdt_path_offset_namelen (fdt : Fdt) (path : String) (n : Nat) : Option FdtNode :=
  fdt.find? fun node => node.path = ⟨path.toList.take n⟩

/-- Unit-address fallback scan of `path_offset` (`hw/ppc/vof.c`): walk
backwards from position `i`; a `/` stops the search with failure, a `@`
retries the lookup with the path cut at that position. -/
def path_offset_scan (fdt : Fdt) (path : String) : Nat → Option FdtNode
  | 0 => none
  | i + 1 =>
    match path.toList.get? (i + 1) with
    | some '/' => none
    | some '@' => fdt_path_offset_namelen fdt path (i + 1)
    | _ => path_offset_scan fdt path i

/-- Function `path_offset` from `hw/ppc/vof.c`: exact lookup of the first
`pathlen` characters, with the `@unit` fallback on failure; an empty path
fails immediately. -/
def path_offset (fdt : Fdt) (path : String) (pathlen : Nat) : Option FdtNode :=
  if pathlen = 0 then none
  else
    match fdt_path_offset_namelen fdt path pathlen with
    | some node => some node
    | none => path_offset_scan fdt path (pathlen - 1)

/-- Modelled from the spec: the backing-device resolution collaborator —
given an opened path, the device model yields a character-stream backing, a
block-device backing, or nothing (`of_client_find_qom_dev` plus the
`chardev` / `drive` QOM properties). -/
inductive Backing
  | none
  | chr
  | blk
deriving DecidableEq

/-- Function `vof_do_open` from `hw/ppc/vof.c`: refuse when the 32-bit
ihandle counter is saturated; strip an optional `:params` suffix; resolve
the node path; on success allocate the next ihandle (never recycled) and
record the binding with any backing device found; on failure return 0 with
the state untouched. -/
def vof_do_open (fdt : Fdt) (devs : String → Backing) (vof : Vof) (path : String) :
    Vof × Nat :=
  if vof.of_instance_last = U32 - 1 then (vof, 0)
  else
    let pathlen := (lastColonIdx path).getD path.length
    match path_offset fdt path pathlen with
    | none => (vof, 0)
    | some node =>
      let last := vof.of_instance_last + 1
      let inst : OfInstance :=
        { path := path, phandle := node.phandle,
          dev := decide (devs path ≠ Backing.none),
          cbe := decide (devs path = Backing.chr),
          blk := decide (devs path = Backing.blk),
          blk_pos := 0 }
      ({ vof with of_instance_last := last,
                  of_instances := (last, inst) :: vof.of_instances }, last)

/-- C9: opening a path that resolves to no device-tree node fails with 0,
leaves the state — in particular the next-ihandle counter — unchanged, and
therefore does not affect what any subsequent open returns. -/
theorem open_unknown_path_frame :
    ∀ (fdt : Fdt) (devs : String → Backing) (vof : Vof) (path : String),
      path_offset fdt path ((lastColonIdx path).getD path.length) = none →
      (vof_do_open fdt devs vof path).2 = 0 ∧
      (vof_do_open fdt devs vof path).1 = vof ∧
      ∀ path2, vof_do_open fdt devs (vof_do_open fdt devs vof path).1 path2
        = vof_do_open fdt devs vof path2 := by
  intro fdt devs vof path hres
  have hopen : vof_do_open fdt devs vof path = (vof, 0) := by
    unfold vof_do_open
    by_cases hsat : vof.of_instance_last = U32 - 1
    · rw [if_pos hsat]
    · rw [if_neg hsat]
      dsimp only
      rw [hres]
  rw [hopen]
  exact ⟨rfl, rfl, fun path2 => rfl⟩

/-- Witness for C9: on the demo tree, opening "/nope" fails without bumping
the counter, and a following successful open of "/chosen" returns ihandle 1
just as it would have without the failed call. -/
theorem open_unknown_path_frame_witness :
    path_offset demoFdt "/nope" ((lastColonIdx "/nope").getD "/nope".length) = none ∧
    (vof_do_open demoFdt (fun _ => Backing.none) (freshTable GiB) "/nope").2 = 0 ∧
    (vof_do_open demoFdt (fun _ => Backing.none)
      (vof_do_open demoFdt (fun _ => Backing.none) (freshTable GiB) "/nope").1
      "/chosen").2 = 1 ∧
    (vof_do_open demoFdt (fun _ => Backing.none) (freshTable GiB) "/chosen").2 = 1 :=
  ⟨by decide,
   (open_unknown_path_frame demoFdt (fun _ => Backing.none) (freshTable GiB) "/nope"
     (by decide)).1,
   by decide, by decide⟩

end VofModel
